import Mathlib

/-!
# Verification of the llms-txt-generator caching layer

A shallow embedding, in Lean 4, of the parts of the repository that the
cache-behaviour claims are about:

* `UrlNormalizer` (`src/lib/urlNormalizer.ts`): URL normalization and
  cache-key generation.
* `SimHash` (`src/lib/softHash.ts`): 64-bit SimHash fingerprints of page
  content and the similarity score between two fingerprints.
* `UrlMetaStore` (the Durable Object): an in-memory map from normalized
  URL to a metadata record, with `checkCache`, `storeContent`,
  `updateLlmsTxt`, `storeRecord`, `getStats` and a `MAX_RECORDS` cap.

JavaScript strings are modelled as Lean `String` (a list of characters);
`charCodeAt` is modelled as the code point, which agrees with JavaScript
for the Basic Multilingual Plane. JavaScript `Map` and plain objects are
modelled as insertion-ordered association lists, matching the iteration
and spread semantics the code relies on. 32-bit integer coercions that
JavaScript performs inside `SimHash.simpleHash` are modelled explicitly
with `% 2 ^ 32` and a signed reinterpretation. `Date.now()` is passed in
as an explicit `now : Nat` argument. Numbers that the code only ever
uses for exact small arithmetic (similarity scores, thresholds) are
modelled as `ℚ`; every similarity value produced is a multiple of 1/64,
and none of the comparisons the claims touch fall inside the rounding gap
of an IEEE double literal, so this is faithful for the claims at hand.
-/

namespace LlmsTxtGen

/-! ## UrlNormalizer (`src/lib/urlNormalizer.ts`) -/

namespace UrlNormalizer

/-- JavaScript `String.prototype.trim`: drop leading and trailing
whitespace. -/
def trimChars (l : List Char) : List Char :=
  ((l.dropWhile Char.isWhitespace).reverse.dropWhile Char.isWhitespace).reverse

/-- `normalized.replace(/^https?:\/\//, "")`: drop one leading
`http://` or `https://`. -/
def stripProtocol : List Char → List Char
  | 'h' :: 't' :: 't' :: 'p' :: ':' :: '/' :: '/' :: rest => rest
  | 'h' :: 't' :: 't' :: 'p' :: 's' :: ':' :: '/' :: '/' :: rest => rest
  | l => l

/-- `normalized.replace(/^www\./, "")`: drop one leading `www.`. -/
def stripWww : List Char → List Char
  | 'w' :: 'w' :: 'w' :: '.' :: rest => rest
  | l => l

/-- `if (!normalized.endsWith("/")) normalized += "/"`. -/
def ensureSlash (l : List Char) : List Char :=
  if l.getLast? = some '/' then l else l ++ ['/']

/-- `normalized.replace(/\/+/g, "/")`: collapse every run of slashes to a
single slash. -/
def collapseSlashes : List Char → List Char
  | a :: b :: t =>
    if a = '/' ∧ b = '/' then collapseSlashes (b :: t)
    else a :: collapseSlashes (b :: t)
  | l => l

/-- `UrlNormalizer.normalize`: trim, lowercase, strip protocol, strip
`www.`, ensure a trailing slash, collapse duplicate slashes. The empty
string is falsy in JavaScript, so it is returned unchanged. -/
def normalize (url : String) : String :=
  if url = "" then ""
  else
    ⟨collapseSlashes (ensureSlash (stripWww (stripProtocol
      (List.map Char.toLower (trimChars url.data)))))⟩

/-- `UrlNormalizer.normalizeArray`: normalize each URL, drop empty
results. -/
def normalizeArray (urls : List String) : List String :=
  (urls.map normalize).filter (fun url => decide (0 < url.length))

/-- JavaScript `Array.prototype.sort()` on strings (default comparator):
a stable sort by string order. -/
def jsSortStrings (l : List String) : List String :=
  l.mergeSort (fun a b => decide (a ≤ b))

/-- `UrlNormalizer.generateCacheKey`: normalize, drop empties, sort, join
with `"|"`. -/
def generateCacheKey (urls : List String) : String :=
  String.intercalate "|" (jsSortStrings (normalizeArray urls))

end UrlNormalizer

/-! ## SimHash (`src/lib/softHash.ts`) -/

namespace SimHash

def HASH_BITS : Nat := 64
def KGRAM_SIZE : Nat := 5
def HASH_SHIFT : Nat := 5

/-- Reinterpret an unsigned 32-bit value as a signed 32-bit value, as
JavaScript's `ToInt32` does. -/
def toInt32 (n : Nat) : Int :=
  if n < 2 ^ 31 then (n : Int) else (n : Int) - 2 ^ 32

/-- JavaScript `>>> 0`: reduce an integer to an unsigned 32-bit value. -/
def toUint32 (n : Int) : Nat :=
  (n.emod (2 ^ 32)).toNat

/-- `SimHash.simpleHash`: `hash = ((hash << 5) - hash + charCode) >>> 0`
folded over the characters. The `<<` operates on the value coerced to a
signed 32-bit integer and wraps; `>>> 0` reduces modulo `2^32`. -/
def simpleHash (str : String) : Nat :=
  str.data.foldl
    (fun hash c =>
      toUint32 (toInt32 ((hash <<< HASH_SHIFT) % 2 ^ 32) - (hash : Int) + (c.toNat : Int)))
    0

/-- `content.replace(/\s+/g, " ")`, character by character: the flag
records whether the previous character was inside a whitespace run, so
each maximal run of whitespace contributes a single space. -/
def collapseWsAux : Bool → List Char → List Char
  | _, [] => []
  | inRun, c :: rest =>
    if c.isWhitespace then
      if inRun then collapseWsAux true rest else ' ' :: collapseWsAux true rest
    else c :: collapseWsAux false rest

/-- `content.replace(/\s+/g, " ")`: replace each maximal run of
whitespace with a single space. -/
def collapseWhitespace (l : List Char) : List Char :=
  collapseWsAux false l

/-- JavaScript `\w` (no `u` flag): ASCII letters, digits, underscore. -/
def isWordChar (c : Char) : Bool :=
  c.isAlphanum || c = '_'

/-- `SimHash.normalizeContent`: lowercase, collapse whitespace, remove
everything that is neither `\w` nor `\s`, trim. -/
def normalizeContent (content : String) : String :=
  ⟨UrlNormalizer.trimChars
    ((collapseWhitespace (content.data.map Char.toLower)).filter
      (fun c => isWordChar c || c.isWhitespace))⟩

/-- One `features.set(kgram, (features.get(kgram) || 0) + 1)` step on an
insertion-ordered association list. -/
def bumpFeature : List (String × Nat) → String → List (String × Nat)
  | [], k => [(k, 1)]
  | (f, c) :: rest, k =>
    if f = k then (f, c + 1) :: rest else (f, c) :: bumpFeature rest k

/-- `SimHash.extractFeatures`: counts of the k-grams
`content.slice(i, i + KGRAM_SIZE)` for `0 ≤ i ≤ length - KGRAM_SIZE`.
When the content is shorter than `KGRAM_SIZE` the loop body never runs. -/
def extractFeatures (content : String) : List (String × Nat) :=
  (List.range (content.length + 1 - KGRAM_SIZE)).foldl
    (fun features i => bumpFeature features ⟨(content.data.drop i).take KGRAM_SIZE⟩)
    []

/-- The weight accumulated in `weights[i]` by `SimHash.computeSimHash`:
each feature contributes `+count` when bit `i` of its 32-bit hash is set
and `-count` otherwise. JavaScript's `hash >> i` takes the shift count
modulo 32, hence the `i % 32`. -/
def simWeight (features : List (String × Nat)) (i : Nat) : Int :=
  features.foldl
    (fun w fc =>
      if (simpleHash fc.1 >>> (i % 32)) % 2 = 1 then w + (fc.2 : Int) else w - (fc.2 : Int))
    0

/-- `SimHash.computeSimHash`: set bit `i` of the result when
`weights[i] > 0`. -/
def computeSimHash (features : List (String × Nat)) : Nat :=
  (List.range HASH_BITS).foldl
    (fun result i => if 0 < simWeight features i then result ||| (1 <<< i) else result)
    0

/-- Little-endian hex digits of `n` by repeated division by 16, with a
structural fuel so the definition evaluates by kernel reduction; the
digit characters are lowercase, as in JavaScript
`Number.prototype.toString(16)` / `BigInt.prototype.toString(16)`.
`fuel = n + 1` always suffices, since `n / 16` strictly decreases. -/
def natToHexAux : Nat → Nat → List Char
  | 0, _ => []
  | fuel + 1, n =>
    if n < 16 then [Nat.digitChar n]
    else Nat.digitChar (n % 16) :: natToHexAux fuel (n / 16)

/-- Little-endian hex digits of `n`. -/
def natToHexRev (n : Nat) : List Char :=
  natToHexAux (n + 1) n

/-- `n.toString(16)`. -/
def natToHex (n : Nat) : List Char :=
  (natToHexRev n).reverse

/-- `hash.toString(16).padStart(16, "0")`. -/
def toHex16 (n : Nat) : String :=
  ⟨List.replicate (16 - (natToHex n).length) '0' ++ natToHex n⟩

/-- Exactly `k` little-endian hex digits of `n` (including leading
zeros); the reversed, padded normal form that `toHex16` produces, used
to reason about the shape of fingerprints. -/
def hexDigitsLE : Nat → Nat → List Char
  | 0, _ => []
  | k + 1, n => Nat.digitChar (n % 16) :: hexDigitsLE k (n / 16)

/-- `SimHash.hash`: the 16-hex-digit fingerprint of a content string;
empty content gets `"0".repeat(16)`. -/
def hash (content : String) : String :=
  if content = "" then ⟨List.replicate 16 '0'⟩
  else toHex16 (computeSimHash (extractFeatures (normalizeContent content)))

/-- The numeric value of one hex digit (code points of `0`-`9`,
`a`-`f`, `A`-`F`), as in `BigInt("0x…")`. -/
def hexDigitVal (c : Char) : Nat :=
  if 48 ≤ c.toNat ∧ c.toNat ≤ 57 then c.toNat - 48
  else if 97 ≤ c.toNat ∧ c.toNat ≤ 102 then c.toNat - 87
  else if 65 ≤ c.toNat ∧ c.toNat ≤ 70 then c.toNat - 55
  else 0

/-- `BigInt("0x" + s)`: parse a hex string. -/
def hexToNat (s : String) : Nat :=
  s.data.foldl (fun acc c => acc * 16 + hexDigitVal c) 0

/-- `SimHash.countBits` (`count += n & 1; n >>= 1` while `n > 0`), with
a structural fuel so the definition evaluates by kernel reduction;
`fuel = n + 1` always suffices, since `n / 2` strictly decreases. -/
def countBitsAux : Nat → Nat → Nat
  | 0, _ => 0
  | fuel + 1, n => if n = 0 then 0 else n % 2 + countBitsAux fuel (n / 2)

/-- `SimHash.countBits`: number of set bits. -/
def countBits (n : Nat) : Nat :=
  countBitsAux (n + 1) n

/-- `SimHash.similarity`: `1 - hammingDistance / 64`, computed exactly.
JavaScript evaluates this in double arithmetic, where division by 64 and
the subtraction are exact, so the value is the rational
`(64 - hammingDistance) / 64`; it is written with `mkRat` so that the
definition evaluates by kernel reduction, and
`similarity_eq_one_sub_div` below re-states it in the source's own
`1 - d / 64` form. -/
def similarity (hash1 hash2 : String) : ℚ :=
  mkRat (64 - (countBits (hexToNat hash1 ^^^ hexToNat hash2) : Int)) 64

/-- `SimHash.isSimilar`: `similarity(hash1, hash2) >= threshold`. -/
def isSimilar (hash1 hash2 : String) (threshold : ℚ) : Bool :=
  decide (threshold ≤ similarity hash1 hash2)

end SimHash

/-! ## UrlMetaStore (the Durable Object)

JavaScript `Map` and object-literal state is modelled as
insertion-ordered association lists; `storage.get`/`storage.put` of the
single `"url_meta_history"` value is modelled by passing the
`UrlMetaHistory` state in and out of each operation, and `Date.now()` by
an explicit `now` argument. -/

/-- A metadata value: the `metadata` fields the code stores are strings
and numbers. -/
inductive MetaVal where
  | str (s : String)
  | num (n : Nat)
deriving DecidableEq

/-- `Map.prototype.set` / one object-spread entry on an
insertion-ordered association list: an existing key keeps its position
and gets the new value, a new key is appended. -/
def mapSet {β : Type} : List (String × β) → String → β → List (String × β)
  | [], k, v => [(k, v)]
  | (k₀, v₀) :: rest, k, v =>
    if k₀ = k then (k, v) :: rest else (k₀, v₀) :: mapSet rest k v

/-- JavaScript object spread `{ ...a, ...b }`: start from `a` and set
each entry of `b` in turn. -/
def mergeObj (a b : List (String × MetaVal)) : List (String × MetaVal) :=
  b.foldl (fun acc kv => mapSet acc kv.1 kv.2) a

/-- `UrlMetaRecord` (one per normalized URL). -/
structure UrlMetaRecord where
  url : String
  contentHash : String
  llmsTxt : Option String
  timestamp : Nat
  lastQueried : Nat
  queryCount : Nat
  comparisonThreshold : ℚ
  metadata : List (String × MetaVal)
deriving DecidableEq

/-- `UrlMetaHistory`: the whole persisted state. -/
structure UrlMetaHistory where
  records : List (String × UrlMetaRecord)
  totalQueries : Nat
  lastUpdated : Nat
deriving DecidableEq

/-- `CacheResult` as returned by `checkCache` (absent JSON fields are
`none`). -/
structure CacheResult where
  cached : Bool
  llmsTxt : Option String
  record : Option UrlMetaRecord
  similarity : Option ℚ
  threshold : Option ℚ
  contentHash : Option String
deriving DecidableEq

namespace UrlMetaStore

def MAX_RECORDS : Nat := 1000
def ONE_DAY_MS : Nat := 24 * 60 * 60 * 1000

/-- The default history `getHistory` fabricates when nothing is stored
yet. -/
def emptyHistory (now : Nat) : UrlMetaHistory :=
  { records := [], totalQueries := 0, lastUpdated := now }

/-- The record map after the `has`/`set` step of `storeRecord`: an
existing record keeps its `queryCount + 1`, a fresh record gets
`queryCount = 1`; either way `lastQueried` becomes `Date.now()`. -/
def recordsAfterInsert (h : UrlMetaHistory) (record : UrlMetaRecord) (now : Nat) :
    List (String × UrlMetaRecord) :=
  match List.lookup record.url h.records with
  | some existing =>
    mapSet h.records record.url
      { record with queryCount := existing.queryCount + 1, lastQueried := now }
  | none =>
    mapSet h.records record.url { record with queryCount := 1, lastQueried := now }

/-- `entries.sort((a, b) => b[1].lastQueried - a[1].lastQueried)`: a
stable sort by `lastQueried` descending. -/
def sortByLastQueriedDesc (entries : List (String × UrlMetaRecord)) :
    List (String × UrlMetaRecord) :=
  entries.mergeSort (fun a b => decide (b.2.lastQueried ≤ a.2.lastQueried))

/-- `UrlMetaStore.storeRecord`: insert/update the record, bump the
counters, and when the map has grown past `MAX_RECORDS` keep only the
`MAX_RECORDS` entries with the greatest `lastQueried`. -/
def storeRecord (h : UrlMetaHistory) (record : UrlMetaRecord) (now : Nat) : UrlMetaHistory :=
  let records := recordsAfterInsert h record now
  let h' : UrlMetaHistory :=
    { records := records, totalQueries := h.totalQueries + 1, lastUpdated := now }
  if MAX_RECORDS < h'.records.length then
    { h' with records := (sortByLastQueriedDesc h'.records).take MAX_RECORDS }
  else h'

/-- The metadata object `storeContent` builds before spreading the
caller's `metadata` over it. -/
def baseMetadata (url content : String) (now : Nat) : List (String × MetaVal) :=
  [("contentLength", .num content.length),
   ("processingTime", .num now),
   ("originalUrl", .str url)]

/-- `UrlMetaStore.storeContent`: normalize the URL, fingerprint the
content, build a fresh record and hand it to `storeRecord`. -/
def storeContent (h : UrlMetaHistory) (url sanitizedContent llmsTxt : String) (threshold : ℚ)
    (metadata : List (String × MetaVal)) (now : Nat) : UrlMetaHistory :=
  let normalizedUrl := UrlNormalizer.normalize url
  let contentHash := SimHash.hash sanitizedContent
  let record : UrlMetaRecord :=
    { url := normalizedUrl
      contentHash := contentHash
      llmsTxt := some llmsTxt
      timestamp := now
      lastQueried := now
      queryCount := 1
      comparisonThreshold := threshold
      metadata := mergeObj (baseMetadata url sanitizedContent now) metadata }
  storeRecord h record now

/-- `UrlMetaStore.checkCache`: look the normalized URL up, fingerprint
the incoming content, compare; the returned state component records that
the method performs no `storage.put`. -/
def checkCache (h : UrlMetaHistory) (url sanitizedContent : String) (threshold : ℚ) :
    CacheResult × UrlMetaHistory :=
  let normalizedUrl := UrlNormalizer.normalize url
  match List.lookup normalizedUrl h.records with
  | none =>
    ({ cached := false, llmsTxt := none, record := none,
       similarity := none, threshold := none, contentHash := none }, h)
  | some existingRecord =>
    let newContentHash := SimHash.hash sanitizedContent
    let similarity := SimHash.similarity existingRecord.contentHash newContentHash
    if threshold ≤ similarity then
      ({ cached := true, llmsTxt := existingRecord.llmsTxt, record := some existingRecord,
         similarity := some similarity, threshold := some threshold,
         contentHash := some newContentHash }, h)
    else
      ({ cached := false, llmsTxt := none, record := none,
         similarity := some similarity, threshold := some threshold,
         contentHash := some newContentHash }, h)

/-- `UrlMetaStore.updateLlmsTxt`: replace the artifact of an existing
record, keep its `contentHash`, merge metadata; throw when no record
exists for the normalized URL. -/
def updateLlmsTxt (h : UrlMetaHistory) (url newLlmsTxt : String)
    (metadata : List (String × MetaVal)) (now : Nat) : Except String UrlMetaHistory :=
  let normalizedUrl := UrlNormalizer.normalize url
  match List.lookup normalizedUrl h.records with
  | none => .error ("No existing record found for URL: " ++ url)
  | some existingRecord =>
    let updatedRecord : UrlMetaRecord :=
      { existingRecord with
        llmsTxt := some newLlmsTxt
        lastQueried := now
        queryCount := existingRecord.queryCount + 1
        metadata :=
          mergeObj (mergeObj existingRecord.metadata metadata) [("processingTime", .num now)] }
    .ok (storeRecord h updatedRecord now)

/-- The result shape of `UrlMetaStore.getStats`. -/
structure Stats where
  totalQueries : Nat
  uniqueUrls : Nat
  lastUpdated : Nat
  recentActivity : Nat
deriving DecidableEq

/-- `UrlMetaStore.getStats`. -/
def getStats (h : UrlMetaHistory) (now : Nat) : Stats :=
  { totalQueries := h.totalQueries
    uniqueUrls := h.records.length
    lastUpdated := h.lastUpdated
    recentActivity :=
      (h.records.filter (fun r => decide (now - ONE_DAY_MS < r.2.lastQueried))).length }

end UrlMetaStore

/-! ## Concrete fixtures

Closed states used by the scenario theorems and the witnesses below;
they are built only through the store's own operations or are plain
record literals. -/

/-- The content of spec Scenario A/D. -/
def scenarioContent : String := "Hello world, this is a test page."

/-- Scenario A's store:
`storeContent("https://example.com", scenarioContent, "SUMMARY-1", 0.8)`
against an empty store. -/
def scenarioStore : UrlMetaHistory :=
  UrlMetaStore.storeContent (UrlMetaStore.emptyHistory 0) "https://example.com"
    scenarioContent "SUMMARY-1" (mkRat 4 5) [] 0

/-- The record Scenario A leaves under the key `"example.com/"`. -/
def scenarioOldRecord : UrlMetaRecord :=
  { url := "example.com/"
    contentHash := SimHash.hash scenarioContent
    llmsTxt := some "SUMMARY-1"
    timestamp := 0
    lastQueried := 0
    queryCount := 1
    comparisonThreshold := mkRat 4 5
    metadata := UrlMetaStore.baseMetadata "https://example.com" scenarioContent 0 }

/-- First store for the metadata-merge counterexample: caller metadata
carries a `"model"` key. -/
def metaStoreFirst : UrlMetaHistory :=
  UrlMetaStore.storeContent (UrlMetaStore.emptyHistory 0) "a.com" "abcdef" "L1"
    (mkRat 4 5) [("model", MetaVal.str "m1")] 0

/-- Second store on the same key with no caller metadata. -/
def metaStoreSecond : UrlMetaHistory :=
  UrlMetaStore.storeContent metaStoreFirst "a.com" "abcdefg" "L2" (mkRat 4 5) [] 1

/-- The record the first metadata-fixture store leaves under
`"a.com/"`. -/
def metaOldRecord : UrlMetaRecord :=
  { url := "a.com/"
    contentHash := SimHash.hash "abcdef"
    llmsTxt := some "L1"
    timestamp := 0
    lastQueried := 0
    queryCount := 1
    comparisonThreshold := mkRat 4 5
    metadata := mergeObj (UrlMetaStore.baseMetadata "a.com" "abcdef" 0)
      [("model", MetaVal.str "m1")] }

/-- An inert record used to populate fixture stores. -/
def dummyRecord : UrlMetaRecord :=
  { url := "", contentHash := "", llmsTxt := none, timestamp := 0, lastQueried := 0,
    queryCount := 0, comparisonThreshold := 0, metadata := [] }

/-- 1000 pairwise-distinct one-character keys for the capacity witness. -/
def capKey (i : Nat) : String := ⟨[Char.ofNat (1000 + i)]⟩

/-- A store already holding `MAX_RECORDS` records. -/
def capHistory : UrlMetaHistory :=
  { records := (List.range UrlMetaStore.MAX_RECORDS).map (fun i => (capKey i, dummyRecord))
    totalQueries := 0
    lastUpdated := 0 }

/-- A record under a key not present in `capHistory`. -/
def capFreshRecord : UrlMetaRecord := { dummyRecord with url := "fresh.com/" }

/-- A store produced by `storeContent` on the too-short content
`"cat"`. -/
def catStore : UrlMetaHistory :=
  UrlMetaStore.storeContent (UrlMetaStore.emptyHistory 0) "x.com" "cat" "L" (mkRat 4 5) [] 0

/-- The record `catStore` holds under `"x.com/"`. -/
def catRecord : UrlMetaRecord :=
  { url := "x.com/"
    contentHash := SimHash.hash "cat"
    llmsTxt := some "L"
    timestamp := 0
    lastQueried := 0
    queryCount := 1
    comparisonThreshold := mkRat 4 5
    metadata := UrlMetaStore.baseMetadata "x.com" "cat" 0 }

/-- A one-record store for the read-only witness. -/
def probeRecord : UrlMetaRecord :=
  { dummyRecord with url := "example.com/", contentHash := "00000000000000ff" }

/-- The store holding `probeRecord`. -/
def probeStore : UrlMetaHistory :=
  { records := [("example.com/", probeRecord)], totalQueries := 1, lastUpdated := 0 }

/-! ## Association-list lemmas -/

theorem lookup_cons_self {β : Type} (k : String) (v : β) (rest : List (String × β)) :
    List.lookup k ((k, v) :: rest) = some v := by
  simp [List.lookup]

theorem lookup_cons_ne {β : Type} (k k₀ : String) (v₀ : β) (rest : List (String × β))
    (hne : k ≠ k₀) : List.lookup k ((k₀, v₀) :: rest) = List.lookup k rest := by
  simp [List.lookup, beq_eq_false_iff_ne.mpr hne]

theorem lookup_mapSet_self {β : Type} (m : List (String × β)) (k : String) (v : β) :
    List.lookup k (mapSet m k v) = some v := by
  induction m with
  | nil => simp [mapSet, List.lookup]
  | cons kv rest ih =>
    obtain ⟨k₀, v₀⟩ := kv
    by_cases hk : k₀ = k
    · rw [mapSet, if_pos hk, lookup_cons_self]
    · rw [mapSet, if_neg hk, lookup_cons_ne _ _ _ _ (Ne.symm hk), ih]

theorem lookup_mapSet_ne {β : Type} (m : List (String × β)) (k k' : String) (v : β)
    (hne : k' ≠ k) : List.lookup k' (mapSet m k v) = List.lookup k' m := by
  induction m with
  | nil =>
    rw [mapSet]
    exact lookup_cons_ne _ _ _ _ hne
  | cons kv rest ih =>
    obtain ⟨k₀, v₀⟩ := kv
    by_cases hk : k₀ = k
    · subst hk
      rw [mapSet, if_pos rfl, lookup_cons_ne _ _ _ _ hne, lookup_cons_ne _ _ _ _ hne]
    · rw [mapSet, if_neg hk]
      by_cases hk' : k' = k₀
      · subst hk'
        rw [lookup_cons_self, lookup_cons_self]
      · rw [lookup_cons_ne _ _ _ _ hk', lookup_cons_ne _ _ _ _ hk', ih]

theorem length_mapSet_some {β : Type} (m : List (String × β)) (k : String) (v w : β)
    (hw : List.lookup k m = some w) : (mapSet m k v).length = m.length := by
  induction m with
  | nil => simp [List.lookup] at hw
  | cons kv rest ih =>
    obtain ⟨k₀, v₀⟩ := kv
    by_cases hk : k₀ = k
    · rw [mapSet, if_pos hk]
      simp
    · rw [lookup_cons_ne _ _ _ _ (Ne.symm hk)] at hw
      rw [mapSet, if_neg hk]
      simp [ih hw]

theorem length_mapSet_none {β : Type} (m : List (String × β)) (k : String) (v : β)
    (hw : List.lookup k m = none) : (mapSet m k v).length = m.length + 1 := by
  induction m with
  | nil => simp [mapSet]
  | cons kv rest ih =>
    obtain ⟨k₀, v₀⟩ := kv
    by_cases hk : k₀ = k
    · subst hk
      rw [lookup_cons_self] at hw
      exact absurd hw (by simp)
    · rw [lookup_cons_ne _ _ _ _ (Ne.symm hk)] at hw
      rw [mapSet, if_neg hk]
      simp [ih hw]

/-! ## Similarity in the source's own form -/

/-- `similarity` equals the source's `1 - hammingDistance / HASH_BITS`. -/
theorem similarity_eq_one_sub_div (h1 h2 : String) :
    SimHash.similarity h1 h2 =
      1 - (SimHash.countBits (SimHash.hexToNat h1 ^^^ SimHash.hexToNat h2) : ℚ) /
        (SimHash.HASH_BITS : ℚ) := by
  unfold SimHash.similarity SimHash.HASH_BITS
  rw [Rat.mkRat_eq_div]
  push_cast
  ring

/-! ## checkCache lemmas -/

theorem checkCache_state_eq (h : UrlMetaHistory) (url content : String) (t : ℚ) :
    (UrlMetaStore.checkCache h url content t).2 = h := by
  cases hl : List.lookup (UrlNormalizer.normalize url) h.records with
  | none => simp [UrlMetaStore.checkCache, hl]
  | some r =>
    simp only [UrlMetaStore.checkCache, hl]
    split <;> rfl

theorem checkCache_hit (h : UrlMetaHistory) (url content : String) (t : ℚ) (r : UrlMetaRecord)
    (hr : List.lookup (UrlNormalizer.normalize url) h.records = some r)
    (ht : t ≤ SimHash.similarity r.contentHash (SimHash.hash content)) :
    (UrlMetaStore.checkCache h url content t).1.cached = true ∧
    (UrlMetaStore.checkCache h url content t).1.llmsTxt = r.llmsTxt ∧
    (UrlMetaStore.checkCache h url content t).1.similarity =
      some (SimHash.similarity r.contentHash (SimHash.hash content)) := by
  refine ⟨?_, ?_, ?_⟩ <;> simp [UrlMetaStore.checkCache, hr, if_pos ht]

/-! ## Claims -/

set_option maxRecDepth 1000000 in
/-- C1: end-to-end cache hit across identifier variants. After
`storeContent("https://example.com", C, "SUMMARY-1", 0.8)` with
`C = "Hello world, this is a test page."`, a call
`checkCache("http://www.example.com/", C, 0.8)` returns `cached = true`,
the stored artifact `"SUMMARY-1"`, and similarity exactly 1: both raw
identifiers normalize to the key `"example.com/"` and identical content
yields the identical fingerprint. -/
theorem claim_C1_cache_hit_across_variants :
    (UrlMetaStore.checkCache scenarioStore "http://www.example.com/" scenarioContent
      (mkRat 4 5)).1.cached = true ∧
    (UrlMetaStore.checkCache scenarioStore "http://www.example.com/" scenarioContent
      (mkRat 4 5)).1.llmsTxt = some "SUMMARY-1" ∧
    (UrlMetaStore.checkCache scenarioStore "http://www.example.com/" scenarioContent
      (mkRat 4 5)).1.similarity = some 1 := by
  decide

/-- C5: `updateLlmsTxt` against a key with no existing record fails with
the NotFound error and performs no `storage.put`, so the store state is
unchanged; in this model the error return carries no successor state at
all. -/
theorem claim_C5_update_missing_key_fails (h : UrlMetaHistory) (url txt : String)
    (meta : List (String × MetaVal)) (now : Nat)
    (hnone : List.lookup (UrlNormalizer.normalize url) h.records = none) :
    UrlMetaStore.updateLlmsTxt h url txt meta now =
      Except.error ("No existing record found for URL: " ++ url) := by
  simp only [UrlMetaStore.updateLlmsTxt, hnone]

/-- Witness for C5: Scenario E, `updateArtifact` on a never-stored key. -/
theorem claim_C5_witness :
    List.lookup (UrlNormalizer.normalize "https://neverstored2.example")
      (UrlMetaStore.emptyHistory 0).records = none ∧
    UrlMetaStore.updateLlmsTxt (UrlMetaStore.emptyHistory 0) "https://neverstored2.example" "X"
      [] 1 =
      Except.error ("No existing record found for URL: " ++ "https://neverstored2.example") :=
  ⟨by decide,
   claim_C5_update_missing_key_fails (UrlMetaStore.emptyHistory 0) "https://neverstored2.example"
     "X" [] 1 (by decide)⟩

/-- C7: `checkCache` is read-only. For every store state, content and
threshold it leaves the state (records, fingerprints, artifacts and the
history counters) unchanged, and whenever a record exists for the key
the similarity it reports is computed at call time from the call's
content against the stored fingerprint, not read from storage. -/
theorem claim_C7_checkCache_read_only (h : UrlMetaHistory) (url content : String) (t : ℚ) :
    (UrlMetaStore.checkCache h url content t).2 = h ∧
    ∀ r : UrlMetaRecord, List.lookup (UrlNormalizer.normalize url) h.records = some r →
      (UrlMetaStore.checkCache h url content t).1.similarity =
        some (SimHash.similarity r.contentHash (SimHash.hash content)) := by
  constructor
  · exact checkCache_state_eq h url content t
  · intro r hr
    simp only [UrlMetaStore.checkCache, hr]
    split <;> rfl

/-- Witness for C7 at a concrete one-record store. -/
theorem claim_C7_witness :
    (UrlMetaStore.checkCache probeStore "example.com" "xyz" (mkRat 4 5)).2 = probeStore ∧
    (UrlMetaStore.checkCache probeStore "example.com" "xyz" (mkRat 4 5)).1.similarity =
      some (SimHash.similarity probeRecord.contentHash (SimHash.hash "xyz")) :=
  ⟨(claim_C7_checkCache_read_only probeStore "example.com" "xyz" (mkRat 4 5)).1,
   (claim_C7_checkCache_read_only probeStore "example.com" "xyz" (mkRat 4 5)).2 probeRecord
     (by decide)⟩

/-- C8: cache-key combination is order-independent: `generateCacheKey`
normalizes every id, drops empties, sorts, and joins with `"|"`, so any
permutation of the id list yields the identical combined key. -/
theorem claim_C8_cacheKey_order_independent (l l' : List String) (h : l.Perm l') :
    UrlNormalizer.generateCacheKey l = UrlNormalizer.generateCacheKey l' := by
  unfold UrlNormalizer.generateCacheKey UrlNormalizer.jsSortStrings
  congr 1
  have hp : (UrlNormalizer.normalizeArray l).Perm (UrlNormalizer.normalizeArray l') :=
    (h.map UrlNormalizer.normalize).filter _
  exact List.eq_of_perm_of_sorted
    (((List.mergeSort_perm _ _).trans hp).trans (List.mergeSort_perm _ _).symm)
    (List.sorted_mergeSort' _) (List.sorted_mergeSort' _)

/-- Witness for C8 on a concrete permutation. -/
theorem claim_C8_witness :
    (["b.com", "a.com", ""] : List String).Perm ["", "a.com", "b.com"] ∧
    UrlNormalizer.generateCacheKey ["b.com", "a.com", ""] =
      UrlNormalizer.generateCacheKey ["", "a.com", "b.com"] :=
  ⟨by decide, claim_C8_cacheKey_order_independent _ _ (by decide)⟩

/-- Counterexample for C3's metadata clause: `storeContent` on an
existing key does not merge the old record's metadata. After a first
store whose caller metadata carries `"model"`, a second store on the
same key with no caller metadata leaves a record, but its metadata has
lost the `"model"` key, even though the claim says metadata keys absent
from the new call are retained. -/
theorem claim_C3_counterexample :
    (List.lookup "a.com/" metaStoreFirst.records).bind
      (fun r => List.lookup "model" r.metadata) = some (MetaVal.str "m1") ∧
    (List.lookup "a.com/" metaStoreSecond.records).isSome = true ∧
    (List.lookup "a.com/" metaStoreSecond.records).bind
      (fun r => List.lookup "model" r.metadata) = none := by
  decide

/-- C3 (amended): `storeContent` on an existing key replaces the
record's fingerprint and artifact, increments `queryCount`, updates
`lastQueried`, and REPLACES the metadata with the metadata of the new
call (the base `contentLength` / `processingTime` / `originalUrl`
object overridden by the caller's entries); metadata keys from the old
record that are absent from the new call are discarded, not retained.
When no record exists for the key, a new record with `queryCount = 1`
is created. (Stated under the `MAX_RECORDS` capacity invariant so the
write is not evicted.) -/
theorem claim_C3_storeContent_replaces (h : UrlMetaHistory) (url content llms : String)
    (thr : ℚ) (meta : List (String × MetaVal)) (now : Nat)
    (hlen : h.records.length ≤ UrlMetaStore.MAX_RECORDS) :
    (∀ old : UrlMetaRecord,
      List.lookup (UrlNormalizer.normalize url) h.records = some old →
      List.lookup (UrlNormalizer.normalize url)
          (UrlMetaStore.storeContent h url content llms thr meta now).records =
        some { url := UrlNormalizer.normalize url
               contentHash := SimHash.hash content
               llmsTxt := some llms
               timestamp := now
               lastQueried := now
               queryCount := old.queryCount + 1
               comparisonThreshold := thr
               metadata := mergeObj (UrlMetaStore.baseMetadata url content now) meta }) ∧
    (List.lookup (UrlNormalizer.normalize url) h.records = none →
      h.records.length < UrlMetaStore.MAX_RECORDS →
      List.lookup (UrlNormalizer.normalize url)
          (UrlMetaStore.storeContent h url content llms thr meta now).records =
        some { url := UrlNormalizer.normalize url
               contentHash := SimHash.hash content
               llmsTxt := some llms
               timestamp := now
               lastQueried := now
               queryCount := 1
               comparisonThreshold := thr
               metadata := mergeObj (UrlMetaStore.baseMetadata url content now) meta }) := by
  constructor
  · intro old hold
    simp only [UrlMetaStore.storeContent, UrlMetaStore.storeRecord,
      UrlMetaStore.recordsAfterInsert, hold]
    rw [length_mapSet_some _ _ _ _ hold, if_neg (by omega)]
    exact lookup_mapSet_self _ _ _
  · intro hnone hlt
    simp only [UrlMetaStore.storeContent, UrlMetaStore.storeRecord,
      UrlMetaStore.recordsAfterInsert, hnone]
    rw [length_mapSet_none _ _ _ hnone, if_neg (by omega)]
    exact lookup_mapSet_self _ _ _

set_option maxRecDepth 1000000 in
/-- Witness for C3 (amended), instantiating the update branch at the
metadata-counterexample store. -/
theorem claim_C3_witness :
    metaStoreFirst.records.length ≤ UrlMetaStore.MAX_RECORDS ∧
    List.lookup (UrlNormalizer.normalize "a.com") metaStoreFirst.records =
      some metaOldRecord ∧
    List.lookup (UrlNormalizer.normalize "a.com")
        (UrlMetaStore.storeContent metaStoreFirst "a.com" "abcdefg" "L2" (mkRat 4 5) [] 1).records =
      some { url := UrlNormalizer.normalize "a.com"
             contentHash := SimHash.hash "abcdefg"
             llmsTxt := some "L2"
             timestamp := 1
             lastQueried := 1
             queryCount := metaOldRecord.queryCount + 1
             comparisonThreshold := mkRat 4 5
             metadata := mergeObj (UrlMetaStore.baseMetadata "a.com" "abcdefg" 1) [] } :=
  ⟨by decide, by decide,
   (claim_C3_storeContent_replaces metaStoreFirst "a.com" "abcdefg" "L2" (mkRat 4 5) [] 1
     (by decide)).1 metaOldRecord (by decide)⟩

/-- C4: `updateLlmsTxt` on an existing record replaces only the
artifact and merges metadata (old metadata, overridden by the call's
metadata, overridden by a fresh `processingTime`); the stored
fingerprint is left untouched, `queryCount` is incremented, every other
record is unchanged, and a subsequent `checkCache` whose similarity
against the UNCHANGED fingerprint reaches the threshold hits and
returns the new artifact. -/
theorem claim_C4_updateArtifact_preserves_fingerprint (h : UrlMetaHistory) (url txt : String)
    (meta : List (String × MetaVal)) (now : Nat) (old : UrlMetaRecord)
    (hold : List.lookup (UrlNormalizer.normalize url) h.records = some old)
    (hkey : old.url = UrlNormalizer.normalize url)
    (hlen : h.records.length ≤ UrlMetaStore.MAX_RECORDS) :
    ∃ h', UrlMetaStore.updateLlmsTxt h url txt meta now = Except.ok h' ∧
      List.lookup (UrlNormalizer.normalize url) h'.records =
        some { old with
               llmsTxt := some txt
               lastQueried := now
               queryCount := old.queryCount + 1
               metadata := mergeObj (mergeObj old.metadata meta)
                 [("processingTime", MetaVal.num now)] } ∧
      (∀ k, k ≠ UrlNormalizer.normalize url →
        List.lookup k h'.records = List.lookup k h.records) ∧
      h'.records.length = h.records.length ∧
      (∀ content : String, ∀ t : ℚ,
        t ≤ SimHash.similarity old.contentHash (SimHash.hash content) →
        (UrlMetaStore.checkCache h' url content t).1.cached = true ∧
        (UrlMetaStore.checkCache h' url content t).1.llmsTxt = some txt) := by
  simp only [UrlMetaStore.updateLlmsTxt, hold]
  refine ⟨_, rfl, ?_⟩
  have hsr :
      (UrlMetaStore.storeRecord h
        { old with
          llmsTxt := some txt
          lastQueried := now
          queryCount := old.queryCount + 1
          metadata := mergeObj (mergeObj old.metadata meta)
            [("processingTime", MetaVal.num now)] } now).records =
      mapSet h.records (UrlNormalizer.normalize url)
        { old with
          llmsTxt := some txt
          lastQueried := now
          queryCount := old.queryCount + 1
          metadata := mergeObj (mergeObj old.metadata meta)
            [("processingTime", MetaVal.num now)] } := by
    simp only [UrlMetaStore.storeRecord, UrlMetaStore.recordsAfterInsert, hkey, hold]
    rw [length_mapSet_some _ _ _ _ hold, if_neg (by omega)]
  have hfound :
      List.lookup (UrlNormalizer.normalize url)
        (UrlMetaStore.storeRecord h
          { old with
            llmsTxt := some txt
            lastQueried := now
            queryCount := old.queryCount + 1
            metadata := mergeObj (mergeObj old.metadata meta)
              [("processingTime", MetaVal.num now)] } now).records =
      some { old with
             llmsTxt := some txt
             lastQueried := now
             queryCount := old.queryCount + 1
             metadata := mergeObj (mergeObj old.metadata meta)
               [("processingTime", MetaVal.num now)] } := by
    rw [hsr]
    exact lookup_mapSet_self _ _ _
  refine ⟨hfound, ?_, ?_, ?_⟩
  · intro k hk
    rw [hsr]
    exact lookup_mapSet_ne _ _ _ _ hk
  · rw [hsr]
    exact length_mapSet_some _ _ _ _ hold
  · intro content t ht
    have := checkCache_hit _ url content t _ hfound ht
    exact ⟨this.1, this.2.1⟩

set_option maxRecDepth 1000000 in
/-- Witness for C4: Scenario D. After Scenario A's store,
`updateArtifact("example.com", "SUMMARY-2")` leaves the fingerprint in
place and a `checkCache` with the original content at threshold 0.8
hits with the new artifact. -/
theorem claim_C4_witness :
    ∃ h', UrlMetaStore.updateLlmsTxt scenarioStore "example.com" "SUMMARY-2" [] 5 =
        Except.ok h' ∧
      List.lookup (UrlNormalizer.normalize "example.com") h'.records =
        some { scenarioOldRecord with
               llmsTxt := some "SUMMARY-2"
               lastQueried := 5
               queryCount := scenarioOldRecord.queryCount + 1
               metadata := mergeObj (mergeObj scenarioOldRecord.metadata [])
                 [("processingTime", MetaVal.num 5)] } ∧
      (∀ k, k ≠ UrlNormalizer.normalize "example.com" →
        List.lookup k h'.records = List.lookup k scenarioStore.records) ∧
      h'.records.length = scenarioStore.records.length ∧
      (∀ content : String, ∀ t : ℚ,
        t ≤ SimHash.similarity scenarioOldRecord.contentHash (SimHash.hash content) →
        (UrlMetaStore.checkCache h' "example.com" content t).1.cached = true ∧
        (UrlMetaStore.checkCache h' "example.com" content t).1.llmsTxt = some "SUMMARY-2") :=
  claim_C4_updateArtifact_preserves_fingerprint scenarioStore "example.com" "SUMMARY-2" [] 5
    scenarioOldRecord (by decide) (by decide) (by decide)

/-- C6: capacity invariant. After every `storeRecord` (the single entry
point of every write) the store holds at most `MAX_RECORDS` records, so
`stats().uniqueUrls ≤ MAX_RECORDS`; and whenever the insert step grows
the map past the cap, exactly the first `MAX_RECORDS` entries of the
map re-sorted by `lastQueried` descending are retained, every retained
record having `lastQueried` at least that of every discarded one. -/
theorem claim_C6_capacity_invariant (h : UrlMetaHistory) (r : UrlMetaRecord) (now : Nat) :
    (UrlMetaStore.storeRecord h r now).records.length ≤ UrlMetaStore.MAX_RECORDS ∧
    (UrlMetaStore.getStats (UrlMetaStore.storeRecord h r now) now).uniqueUrls ≤
      UrlMetaStore.MAX_RECORDS ∧
    (UrlMetaStore.MAX_RECORDS < (UrlMetaStore.recordsAfterInsert h r now).length →
      (UrlMetaStore.storeRecord h r now).records =
        (UrlMetaStore.sortByLastQueriedDesc
          (UrlMetaStore.recordsAfterInsert h r now)).take UrlMetaStore.MAX_RECORDS ∧
      ∀ a ∈ (UrlMetaStore.storeRecord h r now).records,
        ∀ b ∈ (UrlMetaStore.sortByLastQueriedDesc
            (UrlMetaStore.recordsAfterInsert h r now)).drop UrlMetaStore.MAX_RECORDS,
          b.2.lastQueried ≤ a.2.lastQueried) := by
  have hlen : (UrlMetaStore.storeRecord h r now).records.length ≤ UrlMetaStore.MAX_RECORDS := by
    simp only [UrlMetaStore.storeRecord]
    split
    · simp only [List.length_take]
      exact min_le_left _ _
    · next hc =>
      replace hc :
          ¬(UrlMetaStore.MAX_RECORDS < (UrlMetaStore.recordsAfterInsert h r now).length) := hc
      show (UrlMetaStore.recordsAfterInsert h r now).length ≤ UrlMetaStore.MAX_RECORDS
      omega
  refine ⟨hlen, hlen, ?_⟩
  intro htrim
  have hrecords : (UrlMetaStore.storeRecord h r now).records =
      (UrlMetaStore.sortByLastQueriedDesc
        (UrlMetaStore.recordsAfterInsert h r now)).take UrlMetaStore.MAX_RECORDS := by
    simp only [UrlMetaStore.storeRecord]
    rw [if_pos htrim]
  refine ⟨hrecords, ?_⟩
  have hsorted : List.Pairwise
      (fun a b : String × UrlMetaRecord => b.2.lastQueried ≤ a.2.lastQueried)
      (UrlMetaStore.sortByLastQueriedDesc (UrlMetaStore.recordsAfterInsert h r now)) := by
    have := @List.sorted_mergeSort (String × UrlMetaRecord)
      (fun a b => decide (b.2.lastQueried ≤ a.2.lastQueried))
      (by intro a b c h1 h2; simp only [decide_eq_true_eq] at *; omega)
      (by intro a b; simp only [Bool.or_eq_true, decide_eq_true_eq]; omega)
      (UrlMetaStore.recordsAfterInsert h r now)
    exact this.imp (by simp only [decide_eq_true_eq]; exact fun hx => hx)
  intro a ha b hb
  rw [hrecords] at ha
  have hsplit := hsorted
  rw [← List.take_append_drop UrlMetaStore.MAX_RECORDS
    (UrlMetaStore.sortByLastQueriedDesc (UrlMetaStore.recordsAfterInsert h r now))] at hsplit
  exact (List.pairwise_append.mp hsplit).2.2 a ha b hb

/-! ## countBits: recurrence and arithmetic -/

theorem countBitsAux_fuel_irrel (f₁ : Nat) :
    ∀ f₂ n : Nat, n < f₁ → n < f₂ →
      SimHash.countBitsAux f₁ n = SimHash.countBitsAux f₂ n := by
  induction f₁ with
  | zero => intro f₂ n h₁; omega
  | succ k ih =>
    intro f₂ n h₁ h₂
    cases f₂ with
    | zero => omega
    | succ m =>
      simp only [SimHash.countBitsAux]
      by_cases hn : n = 0
      · simp [hn]
      · rw [if_neg hn, if_neg hn, ih m (n / 2) (by omega) (by omega)]

theorem countBits_step (n : Nat) :
    SimHash.countBits n = if n = 0 then 0 else n % 2 + SimHash.countBits (n / 2) := by
  cases n with
  | zero => rfl
  | succ m =>
    rw [if_neg (Nat.succ_ne_zero m)]
    have h1 : SimHash.countBitsAux (m + 1 + 1) (m + 1) =
        (m + 1) % 2 + SimHash.countBitsAux (m + 1) ((m + 1) / 2) := rfl
    show SimHash.countBitsAux (m + 1 + 1) (m + 1) = _
    rw [h1,
      countBitsAux_fuel_irrel (m + 1) ((m + 1) / 2 + 1) ((m + 1) / 2) (by omega) (by omega)]
    rfl

theorem countBits_zero : SimHash.countBits 0 = 0 := by
  simp [countBits_step]

theorem countBits_rec (n : Nat) :
    SimHash.countBits n = n % 2 + SimHash.countBits (n / 2) := by
  by_cases hn : n = 0
  · simp [hn, countBits_zero]
  · rw [countBits_step, if_neg hn]

theorem countBits_mul_pow_add :
    ∀ n a b : Nat, b < 2 ^ n →
      SimHash.countBits (2 ^ n * a + b) = SimHash.countBits a + SimHash.countBits b := by
  intro n
  induction n with
  | zero =>
    intro a b hb
    have : b = 0 := by omega
    simp [this, countBits_zero]
  | succ k ih =>
    intro a b hb
    have hx : 2 ^ (k + 1) * a + b = 2 * (2 ^ k * a) + b := by ring
    rw [hx, countBits_rec]
    have hmod : (2 * (2 ^ k * a) + b) % 2 = b % 2 := Nat.mul_add_mod 2 _ b
    have hdiv : (2 * (2 ^ k * a) + b) / 2 = 2 ^ k * a + b / 2 :=
      Nat.mul_add_div (by omega) _ _
    rw [hmod, hdiv, ih a (b / 2) (by omega)]
    rw [countBits_rec b]
    omega

theorem countBits_le : ∀ n b : Nat, b < 2 ^ n → SimHash.countBits b ≤ n := by
  intro n
  induction n with
  | zero =>
    intro b hb
    have : b = 0 := by omega
    simp [this, countBits_zero]
  | succ k ih =>
    intro b hb
    rw [countBits_rec]
    have h2 : b / 2 < 2 ^ k := by
      rw [Nat.div_lt_iff_lt_mul (by omega)]
      calc b < 2 ^ (k + 1) := hb
      _ = 2 ^ k * 2 := by ring
    have := ih (b / 2) h2
    omega

/-! ## Hex printing and parsing -/

theorem hexDigitsLE_length (k : Nat) : ∀ n, (SimHash.hexDigitsLE k n).length = k := by
  induction k with
  | zero => intro n; rfl
  | succ m ih => intro n; simp only [SimHash.hexDigitsLE, List.length_cons, ih]

theorem hexDigitsLE_zero (k : Nat) : SimHash.hexDigitsLE k 0 = List.replicate k '0' := by
  induction k with
  | zero => rfl
  | succ m ih =>
    simp [SimHash.hexDigitsLE, ih, List.replicate_succ,
      show Nat.digitChar 0 = '0' from rfl]

theorem natToHexAux_spec :
    ∀ fuel n k : Nat, n < fuel → 0 < k → n < 16 ^ k →
      SimHash.natToHexAux fuel n ++
        List.replicate (k - (SimHash.natToHexAux fuel n).length) '0' =
      SimHash.hexDigitsLE k n := by
  intro fuel
  induction fuel with
  | zero => intro n k h; omega
  | succ f ih =>
    intro n k hn hk hnk
    by_cases h16 : n < 16
    · obtain ⟨k', rfl⟩ : ∃ k', k = k' + 1 := ⟨k - 1, by omega⟩
      simp only [SimHash.natToHexAux, if_pos h16, SimHash.hexDigitsLE]
      rw [Nat.mod_eq_of_lt h16, Nat.div_eq_of_lt h16, hexDigitsLE_zero]
      simp
    · have hk2 : 2 ≤ k := by
        rcases Nat.lt_or_ge k 2 with hlt | hge
        · exfalso
          have hk1 : k = 1 := by omega
          rw [hk1, pow_one] at hnk
          omega
        · exact hge
      obtain ⟨k', rfl⟩ : ∃ k', k = k' + 1 := ⟨k - 1, by omega⟩
      have hdiv_fuel : n / 16 < f := by
        have := Nat.div_lt_self (show 0 < n by omega) (show 1 < 16 by omega)
        omega
      have hdiv_pow : n / 16 < 16 ^ k' := by
        rw [Nat.div_lt_iff_lt_mul (by omega)]
        calc n < 16 ^ (k' + 1) := hnk
          _ = 16 ^ k' * 16 := by ring
      have hrec := ih (n / 16) k' hdiv_fuel (by omega) hdiv_pow
      simp only [SimHash.natToHexAux, if_neg h16, SimHash.hexDigitsLE, List.length_cons,
        List.cons_append]
      congr 1
      rw [show k' + 1 - ((SimHash.natToHexAux f (n / 16)).length + 1) =
        k' - (SimHash.natToHexAux f (n / 16)).length from by omega]
      exact hrec

theorem hexDigitsLE_add (a : Nat) : ∀ b n : Nat, SimHash.hexDigitsLE (a + b) n =
    SimHash.hexDigitsLE a n ++ SimHash.hexDigitsLE b (n / 16 ^ a) := by
  induction a with
  | zero =>
    intro b n
    simp [SimHash.hexDigitsLE, Nat.zero_add]
  | succ m ih =>
    intro b n
    rw [show m + 1 + b = (m + b) + 1 from by omega]
    simp only [SimHash.hexDigitsLE, List.cons_append]
    congr 1
    rw [ih b (n / 16), Nat.div_div_eq_div_mul, show (16 : ℕ) * 16 ^ m = 16 ^ (m + 1) from by ring]

theorem hexDigitsLE_mod (a : Nat) : ∀ n, SimHash.hexDigitsLE a n =
    SimHash.hexDigitsLE a (n % 16 ^ a) := by
  induction a with
  | zero => intro n; rfl
  | succ m ih =>
    intro n
    simp only [SimHash.hexDigitsLE]
    congr 1
    · rw [Nat.mod_mod_of_dvd n (dvd_pow_self 16 (Nat.succ_ne_zero m))]
    · have h1 : n % 16 ^ (m + 1) / 16 = n / 16 % 16 ^ m := by
        rw [show (16 : ℕ) ^ (m + 1) = 16 * 16 ^ m from by ring]
        exact Nat.mod_mul_right_div_self n 16 (16 ^ m)
      rw [h1]
      exact ih (n / 16)

theorem toHex16_data (v : Nat) (hv : v < 2 ^ 64) :
    (SimHash.toHex16 v).data = (SimHash.hexDigitsLE 16 v).reverse := by
  have hv16 : v < 16 ^ 16 := by
    have h : (16 : ℕ) ^ 16 = 2 ^ 64 := by norm_num
    omega
  have hspec := natToHexAux_spec (v + 1) v 16 (by omega) (by omega) hv16
  calc (SimHash.toHex16 v).data
      = List.replicate (16 - (SimHash.natToHexAux (v + 1) v).reverse.length) '0' ++
          (SimHash.natToHexAux (v + 1) v).reverse := rfl
    _ = List.replicate (16 - (SimHash.natToHexAux (v + 1) v).length) '0' ++
          (SimHash.natToHexAux (v + 1) v).reverse := by rw [List.length_reverse]
    _ = (SimHash.natToHexAux (v + 1) v ++
          List.replicate (16 - (SimHash.natToHexAux (v + 1) v).length) '0').reverse := by
          rw [List.reverse_append, List.reverse_replicate]
    _ = (SimHash.hexDigitsLE 16 v).reverse := by rw [hspec]

theorem hexDigitVal_lt (c : Char) : SimHash.hexDigitVal c < 16 := by
  unfold SimHash.hexDigitVal
  split_ifs <;> omega

theorem parse_foldl_acc (l : List Char) : ∀ acc : Nat,
    l.foldl (fun a c => a * 16 + SimHash.hexDigitVal c) acc =
      acc * 16 ^ l.length + l.foldl (fun a c => a * 16 + SimHash.hexDigitVal c) 0 := by
  induction l with
  | nil => intro acc; simp
  | cons c t ih =>
    intro acc
    simp only [List.foldl_cons, List.length_cons]
    rw [ih (acc * 16 + SimHash.hexDigitVal c), ih (0 * 16 + SimHash.hexDigitVal c)]
    ring

theorem parse_append (l₁ l₂ : List Char) :
    (l₁ ++ l₂).foldl (fun a c => a * 16 + SimHash.hexDigitVal c) 0 =
      l₁.foldl (fun a c => a * 16 + SimHash.hexDigitVal c) 0 * 16 ^ l₂.length +
      l₂.foldl (fun a c => a * 16 + SimHash.hexDigitVal c) 0 := by
  rw [List.foldl_append, parse_foldl_acc]

theorem parse_lt (l : List Char) :
    l.foldl (fun a c => a * 16 + SimHash.hexDigitVal c) 0 < 16 ^ l.length := by
  induction l with
  | nil => simp
  | cons c t ih =>
    simp only [List.foldl_cons, List.length_cons]
    rw [parse_foldl_acc, show (0 * 16 + SimHash.hexDigitVal c) = SimHash.hexDigitVal c from
      by ring]
    have hc := hexDigitVal_lt c
    calc SimHash.hexDigitVal c * 16 ^ t.length +
          t.foldl (fun a c => a * 16 + SimHash.hexDigitVal c) 0
        < SimHash.hexDigitVal c * 16 ^ t.length + 16 ^ t.length := by omega
      _ = (SimHash.hexDigitVal c + 1) * 16 ^ t.length := by ring
      _ ≤ 16 * 16 ^ t.length := Nat.mul_le_mul_right _ (by omega)
      _ = 16 ^ (t.length + 1) := by ring

/-! ## Bitwise arithmetic for the mirrored fingerprint -/

theorem xor_mul_pow_add (n p q r s : Nat) (hr : r < 2 ^ n) (hs : s < 2 ^ n) :
    (2 ^ n * p + r) ^^^ (2 ^ n * q + s) = 2 ^ n * (p ^^^ q) + (r ^^^ s) := by
  have hrs : r ^^^ s < 2 ^ n := Nat.xor_lt_two_pow hr hs
  apply Nat.eq_of_testBit_eq
  intro i
  rw [Nat.testBit_xor, Nat.testBit_mul_pow_two_add p hr i, Nat.testBit_mul_pow_two_add q hs i,
    Nat.testBit_mul_pow_two_add (p ^^^ q) hrs i]
  by_cases hi : i < n
  · simp [hi, Nat.testBit_xor]
  · simp [hi, Nat.testBit_xor]

theorem computeSimHash_testBit (fs : List (String × Nat)) (j : Nat) :
    (SimHash.computeSimHash fs).testBit j =
      (decide (j < 64) && decide (0 < SimHash.simWeight fs j)) := by
  have main : ∀ m : Nat, ((List.range m).foldl
      (fun result i => if 0 < SimHash.simWeight fs i then result ||| (1 <<< i) else result)
      0).testBit j = (decide (j < m) && decide (0 < SimHash.simWeight fs j)) := by
    intro m
    induction m with
    | zero => simp [Nat.zero_testBit]
    | succ k ih =>
      rw [List.range_succ, List.foldl_append]
      simp only [List.foldl_cons, List.foldl_nil]
      by_cases hw : 0 < SimHash.simWeight fs k
      · rw [if_pos hw, Nat.testBit_or, ih, Nat.one_shiftLeft, Nat.testBit_two_pow]
        by_cases hjk : j = k
        · subst hjk
          simp [hw]
        · by_cases hjlt : j < k
          · simp [hjlt, Ne.symm hjk, show j < k + 1 from by omega]
          · simp [hjlt, Ne.symm hjk, show ¬j < k + 1 from by omega]
      · rw [if_neg hw, ih]
        by_cases hjk : j = k
        · subst hjk
          simp [hw]
        · by_cases hjlt : j < k
          · simp [hjlt, show j < k + 1 from by omega]
          · simp [hjlt, show ¬j < k + 1 from by omega]
  simpa [SimHash.computeSimHash, SimHash.HASH_BITS] using main 64

theorem simWeight_add_32 (fs : List (String × Nat)) (i : Nat) :
    SimHash.simWeight fs (i + 32) = SimHash.simWeight fs i := by
  unfold SimHash.simWeight
  simp only [Nat.add_mod_right]

theorem computeSimHash_lt (fs : List (String × Nat)) : SimHash.computeSimHash fs < 2 ^ 64 :=
  Nat.lt_pow_two_of_testBit _ (fun i hi => by
    rw [computeSimHash_testBit]
    simp [show ¬i < 64 from by omega])

/-- Every fingerprint `SimHash.hash` produces consists of an 8-hex-digit
block repeated twice. -/
theorem hash_data_double (content : String) :
    ∃ b : List Char, b.length = 8 ∧ (SimHash.hash content).data = b ++ b := by
  by_cases hc : content = ""
  · refine ⟨List.replicate 8 '0', by simp, ?_⟩
    subst hc
    show (List.replicate 16 '0' : List Char) = _
    rw [show (16 : ℕ) = 8 + 8 from rfl, List.replicate_add]
  · set v := SimHash.computeSimHash (SimHash.extractFeatures (SimHash.normalizeContent content))
      with hvdef
    have hlt : v < 2 ^ 64 := computeSimHash_lt _
    have hdm : v / 2 ^ 32 = v % 2 ^ 32 := by
      have h1 : v / 2 ^ 32 = v >>> 32 := (Nat.shiftRight_eq_div_pow v 32).symm
      apply Nat.eq_of_testBit_eq
      intro i
      rw [h1, Nat.testBit_shiftRight, Nat.testBit_mod_two_pow, hvdef,
        computeSimHash_testBit, computeSimHash_testBit]
      by_cases hi : i < 32
      · rw [show 32 + i = i + 32 from by omega, simWeight_add_32]
        simp [show i + 32 < 64 from by omega, show i < 64 from by omega, hi]
      · simp [hi, show ¬32 + i < 64 from by omega]
    have hm : v % 2 ^ 32 < 2 ^ 32 := Nat.mod_lt _ (by norm_num)
    refine ⟨(SimHash.hexDigitsLE 8 (v % 2 ^ 32)).reverse,
      by rw [List.length_reverse, hexDigitsLE_length], ?_⟩
    have hdata : (SimHash.hash content).data = (SimHash.hexDigitsLE 16 v).reverse := by
      rw [show SimHash.hash content = SimHash.toHex16 v from by rw [SimHash.hash, if_neg hc]]
      exact toHex16_data v hlt
    rw [hdata]
    have h16 : (16 : ℕ) ^ 8 = 2 ^ 32 := by norm_num
    have hsplit : SimHash.hexDigitsLE 16 v =
        SimHash.hexDigitsLE 8 (v % 2 ^ 32) ++ SimHash.hexDigitsLE 8 (v % 2 ^ 32) := by
      have h88 : SimHash.hexDigitsLE 16 v =
          SimHash.hexDigitsLE 8 v ++ SimHash.hexDigitsLE 8 (v / 16 ^ 8) :=
        hexDigitsLE_add 8 8 v
      rw [h88]
      congr 1
      · rw [hexDigitsLE_mod 8 v, h16]
      · rw [h16, hdm]
    rw [hsplit, List.reverse_append]

theorem toUint32_lt (n : Int) : SimHash.toUint32 n < 2 ^ 32 := by
  unfold SimHash.toUint32
  have h1 : 0 ≤ n.emod (2 ^ 32) := Int.emod_nonneg n (by norm_num)
  have h2 : n.emod (2 ^ 32) < 2 ^ 32 := Int.emod_lt_of_pos n (by norm_num)
  omega

theorem simpleHash_lt (s : String) : SimHash.simpleHash s < 2 ^ 32 := by
  have main : ∀ (l : List Char) (acc : Nat), acc < 2 ^ 32 →
      l.foldl (fun hash c =>
        SimHash.toUint32 (SimHash.toInt32 ((hash <<< SimHash.HASH_SHIFT) % 2 ^ 32) -
          (hash : Int) + (c.toNat : Int))) acc < 2 ^ 32 := by
    intro l
    induction l with
    | nil => intro acc h; exact h
    | cons c t ih =>
      intro acc h
      exact ih _ (toUint32_lt _)
  exact main s.data 0 (by norm_num)

/-- The numeric value of every fingerprint is a 32-bit block repeated:
`2^32 * p + p` with `p < 2^32`. -/
theorem hexToNat_hash (content : String) :
    ∃ p : Nat, p < 2 ^ 32 ∧
      SimHash.hexToNat (SimHash.hash content) = 2 ^ 32 * p + p := by
  obtain ⟨b, hb8, hdata⟩ := hash_data_double content
  have h16 : (16 : ℕ) ^ 8 = 2 ^ 32 := by norm_num
  refine ⟨b.foldl (fun a c => a * 16 + SimHash.hexDigitVal c) 0, ?_, ?_⟩
  · have := parse_lt b
    rw [hb8, h16] at this
    exact this
  · rw [SimHash.hexToNat, hdata, parse_append, hb8, h16]
    ring

/-! ## Normalization pipeline lemmas -/

theorem collapse_cons (l : List Char) : ∀ (c : Char) (t : List Char), l = c :: t →
    ∃ m, UrlNormalizer.collapseSlashes l = c :: m := by
  induction l using UrlNormalizer.collapseSlashes.induct with
  | case1 a b t hab ih =>
    intro c t' heq
    obtain ⟨rfl, rfl⟩ : a = c ∧ b :: t = t' := by
      simpa using heq
    obtain ⟨m, hm⟩ := ih b t rfl
    refine ⟨m, ?_⟩
    rw [UrlNormalizer.collapseSlashes, if_pos hab, hm, hab.1, hab.2]
  | case2 a b t hab ih =>
    intro c t' heq
    obtain ⟨rfl, rfl⟩ : a = c ∧ b :: t = t' := by
      simpa using heq
    exact ⟨UrlNormalizer.collapseSlashes (b :: t), by
      rw [UrlNormalizer.collapseSlashes, if_neg hab]⟩
  | case3 l hl =>
    intro c t heq
    subst heq
    cases t with
    | nil => exact ⟨[], rfl⟩
    | cons b t' => exact absurd rfl (hl c b t')

theorem collapse_chain (l : List Char) :
    List.Chain' (fun a b => ¬(a = '/' ∧ b = '/')) (UrlNormalizer.collapseSlashes l) := by
  induction l using UrlNormalizer.collapseSlashes.induct with
  | case1 a b t hab ih =>
    rw [UrlNormalizer.collapseSlashes, if_pos hab]
    exact ih
  | case2 a b t hab ih =>
    rw [UrlNormalizer.collapseSlashes, if_neg hab]
    rw [List.chain'_cons']
    refine ⟨?_, ih⟩
    intro y hy
    obtain ⟨m, hm⟩ := collapse_cons (b :: t) b t rfl
    rw [hm] at hy
    simp only [List.head?_cons, Option.mem_def, Option.some.injEq] at hy
    subst hy
    exact hab
  | case3 l hl =>
    cases l with
    | nil => exact List.chain'_nil
    | cons a t =>
      cases t with
      | nil => exact List.chain'_singleton a
      | cons b t' => exact absurd rfl (hl a b t')

theorem collapse_of_chain (l : List Char)
    (h : List.Chain' (fun a b => ¬(a = '/' ∧ b = '/')) l) :
    UrlNormalizer.collapseSlashes l = l := by
  induction l with
  | nil => rfl
  | cons a t ih =>
    cases t with
    | nil => rfl
    | cons b t' =>
      rw [List.chain'_cons] at h
      rw [UrlNormalizer.collapseSlashes, if_neg h.1, ih h.2]

theorem collapse_getLast (l : List Char) (h : l.getLast? = some '/') :
    (UrlNormalizer.collapseSlashes l).getLast? = some '/' := by
  induction l using UrlNormalizer.collapseSlashes.induct with
  | case1 a b t hab ih =>
    rw [UrlNormalizer.collapseSlashes, if_pos hab]
    exact ih (by rw [← List.getLast?_cons_cons (a := a)]; exact h)
  | case2 a b t hab ih =>
    rw [UrlNormalizer.collapseSlashes, if_neg hab]
    obtain ⟨m, hm⟩ := collapse_cons (b :: t) b t rfl
    rw [hm, List.getLast?_cons_cons, ← hm]
    exact ih (by rw [← List.getLast?_cons_cons (a := a)]; exact h)
  | case3 l hl =>
    cases l with
    | nil => simp at h
    | cons a t =>
      cases t with
      | nil => exact h
      | cons b t' => exact absurd rfl (hl a b t')

theorem collapse_sublist (l : List Char) :
    (UrlNormalizer.collapseSlashes l).Sublist l := by
  induction l using UrlNormalizer.collapseSlashes.induct with
  | case1 a b t hab ih =>
    rw [UrlNormalizer.collapseSlashes, if_pos hab]
    exact ih.cons a
  | case2 a b t hab ih =>
    rw [UrlNormalizer.collapseSlashes, if_neg hab]
    exact ih.cons₂ a
  | case3 l hl =>
    cases l with
    | nil => exact List.Sublist.refl []
    | cons a t =>
      cases t with
      | nil => exact List.Sublist.refl [a]
      | cons b t' => exact absurd rfl (hl a b t')

theorem ensureSlash_getLast (l : List Char) :
    (UrlNormalizer.ensureSlash l).getLast? = some '/' := by
  unfold UrlNormalizer.ensureSlash
  split
  · next h => exact h
  · exact List.getLast?_concat l

theorem mem_ensureSlash (c : Char) (l : List Char) (h : c ∈ UrlNormalizer.ensureSlash l) :
    c ∈ l ∨ c = '/' := by
  unfold UrlNormalizer.ensureSlash at h
  split at h
  · exact Or.inl h
  · rcases List.mem_append.mp h with h1 | h1
    · exact Or.inl h1
    · simp only [List.mem_singleton] at h1
      exact Or.inr h1

theorem stripWww_cases (l : List Char) :
    UrlNormalizer.stripWww l = l ∨
      ∃ rest, l = 'w' :: 'w' :: 'w' :: '.' :: rest ∧ UrlNormalizer.stripWww l = rest := by
  unfold UrlNormalizer.stripWww
  split
  · next rest => exact Or.inr ⟨rest, by trivial, by trivial⟩
  · exact Or.inl rfl

theorem stripProtocol_cases (l : List Char) :
    UrlNormalizer.stripProtocol l = l ∨
      (∃ rest, l = 'h' :: 't' :: 't' :: 'p' :: ':' :: '/' :: '/' :: rest ∧
        UrlNormalizer.stripProtocol l = rest) ∨
      (∃ rest, l = 'h' :: 't' :: 't' :: 'p' :: 's' :: ':' :: '/' :: '/' :: rest ∧
        UrlNormalizer.stripProtocol l = rest) := by
  unfold UrlNormalizer.stripProtocol
  split
  · next rest => exact Or.inr (Or.inl ⟨rest, by trivial, by trivial⟩)
  · next rest => exact Or.inr (Or.inr ⟨rest, by trivial, by trivial⟩)
  · exact Or.inl rfl

theorem mem_stripWww (c : Char) (l : List Char) (h : c ∈ UrlNormalizer.stripWww l) : c ∈ l := by
  rcases stripWww_cases l with heq | ⟨rest, hshape, heq⟩
  · rwa [heq] at h
  · rw [heq] at h
    rw [hshape]
    simp [h]

theorem mem_stripProtocol (c : Char) (l : List Char)
    (h : c ∈ UrlNormalizer.stripProtocol l) : c ∈ l := by
  rcases stripProtocol_cases l with heq | ⟨rest, hshape, heq⟩ | ⟨rest, hshape, heq⟩ <;>
    [rwa [heq] at h; skip; skip] <;>
    · rw [heq] at h
      rw [hshape]
      simp [h]

theorem mem_trimChars (c : Char) (l : List Char) (h : c ∈ UrlNormalizer.trimChars l) :
    c ∈ l := by
  unfold UrlNormalizer.trimChars at h
  rw [List.mem_reverse] at h
  have h1 := (List.dropWhile_sublist Char.isWhitespace).mem h
  rw [List.mem_reverse] at h1
  exact (List.dropWhile_sublist Char.isWhitespace).mem h1

theorem stripProtocol_of_chain (l : List Char)
    (h : List.Chain' (fun a b => ¬(a = '/' ∧ b = '/')) l) :
    UrlNormalizer.stripProtocol l = l := by
  rcases stripProtocol_cases l with heq | ⟨rest, hshape, heq⟩ | ⟨rest, hshape, heq⟩
  · exact heq
  · rw [hshape] at h
    simp [List.chain'_cons] at h
  · rw [hshape] at h
    simp [List.chain'_cons] at h

theorem toLower_idem (c : Char) : Char.toLower (Char.toLower c) = Char.toLower c := by
  have key : ∀ d : Char, 97 ≤ d.toNat → Char.toLower d = d := by
    intro d hd
    simp only [Char.toLower]
    rw [if_neg (by omega)]
  by_cases h : c.toNat ≥ 65 ∧ c.toNat ≤ 90
  · have hlc : Char.toLower c = Char.ofNat (c.toNat + 32) := by
      simp only [Char.toLower]
      rw [if_pos h]
    have hv : (c.toNat + 32).isValidChar := Or.inl (by omega)
    have ht : (Char.ofNat (c.toNat + 32)).toNat = c.toNat + 32 := by
      unfold Char.ofNat
      rw [dif_pos hv]
      rfl
    rw [hlc]
    exact key _ (by rw [ht]; omega)
  · have hlc : Char.toLower c = c := by
      simp only [Char.toLower]
      rw [if_neg h]
    rw [hlc]
    exact hlc

set_option maxRecDepth 1000000 in
/-- Witness for C6: a store already holding `MAX_RECORDS` records plus
one fresh key exceeds the cap and triggers the trim. -/
theorem claim_C6_witness :
    UrlMetaStore.MAX_RECORDS <
      (UrlMetaStore.recordsAfterInsert capHistory capFreshRecord 7).length ∧
    (UrlMetaStore.storeRecord capHistory capFreshRecord 7).records =
      (UrlMetaStore.sortByLastQueriedDesc
        (UrlMetaStore.recordsAfterInsert capHistory capFreshRecord 7)).take
        UrlMetaStore.MAX_RECORDS := by
  have hp : UrlMetaStore.MAX_RECORDS <
      (UrlMetaStore.recordsAfterInsert capHistory capFreshRecord 7).length := by
    decide
  exact ⟨hp, ((claim_C6_capacity_invariant capHistory capFreshRecord 7).2.2 hp).1⟩

/-- C9: the per-shingle hash is 32 bits wide, and because JavaScript's
`>>` takes its shift count modulo 32, bit `i` and bit `i + 32` of every
fingerprint agree: each 16-hex-digit fingerprint has its first 8 digits
equal to its last 8 (numerically, its upper 32 bits equal its lower 32
bits); consequently the Hamming distance between any two produced
fingerprints is even and the similarity score always has the form
`1 - 2k/64` with `k ≤ 32`. -/
theorem claim_C9_mirrored_fingerprint :
    (∀ s : String, SimHash.simpleHash s < 2 ^ 32) ∧
    (∀ content : String,
      (SimHash.hash content).data.length = 16 ∧
      (SimHash.hash content).data.take 8 = (SimHash.hash content).data.drop 8 ∧
      SimHash.hexToNat (SimHash.hash content) / 2 ^ 32 =
        SimHash.hexToNat (SimHash.hash content) % 2 ^ 32) ∧
    (∀ c1 c2 : String, ∃ k : Nat, k ≤ 32 ∧
      SimHash.countBits
          (SimHash.hexToNat (SimHash.hash c1) ^^^ SimHash.hexToNat (SimHash.hash c2)) =
        2 * k ∧
      SimHash.similarity (SimHash.hash c1) (SimHash.hash c2) = 1 - 2 * (k : ℚ) / 64) := by
  refine ⟨simpleHash_lt, ?_, ?_⟩
  · intro content
    obtain ⟨b, hb8, hdata⟩ := hash_data_double content
    obtain ⟨p, hp, hval⟩ := hexToNat_hash content
    refine ⟨?_, ?_, ?_⟩
    · rw [hdata, List.length_append, hb8]
    · rw [hdata, ← hb8, List.take_left, List.drop_left]
    · rw [hval, Nat.mul_add_div (by norm_num), Nat.mul_add_mod,
        Nat.div_eq_of_lt hp, Nat.mod_eq_of_lt hp]
      omega
  · intro c1 c2
    obtain ⟨p, hp, h1⟩ := hexToNat_hash c1
    obtain ⟨q, hq, h2⟩ := hexToNat_hash c2
    have hpq : p ^^^ q < 2 ^ 32 := Nat.xor_lt_two_pow hp hq
    have hxor : SimHash.hexToNat (SimHash.hash c1) ^^^ SimHash.hexToNat (SimHash.hash c2) =
        2 ^ 32 * (p ^^^ q) + (p ^^^ q) := by
      rw [h1, h2]
      exact xor_mul_pow_add 32 p q p q hp hq
    refine ⟨SimHash.countBits (p ^^^ q), countBits_le 32 _ hpq, ?_, ?_⟩
    · rw [hxor, countBits_mul_pow_add 32 _ _ hpq]
      omega
    · rw [similarity_eq_one_sub_div, hxor, countBits_mul_pow_add 32 _ _ hpq]
      simp only [SimHash.HASH_BITS]
      push_cast
      ring

/-- `extractFeatures` has no k-grams to collect when the content is
shorter than `KGRAM_SIZE`. -/
theorem extractFeatures_short (c : String) (h : c.length < SimHash.KGRAM_SIZE) :
    SimHash.extractFeatures c = [] := by
  unfold SimHash.extractFeatures
  rw [show c.length + 1 - SimHash.KGRAM_SIZE = 0 from by
    unfold SimHash.KGRAM_SIZE at *
    omega]
  rfl

set_option maxRecDepth 1000000 in
/-- C10: every input whose normalized text is shorter than the shingle
width 5 — including the empty string, whitespace-only strings, `"cat"`
and `"dog"` — receives the all-zero fingerprint; hence any two such
inputs have similarity 1, `isSimilar` treats them exactly as it treats
identical content at every threshold (so it accepts them at every
threshold ≤ 1), and `checkCache` hits at every threshold ≤ 1. -/
theorem claim_C10_short_content_zero_fingerprint :
    (∀ content : String,
      (SimHash.normalizeContent content).length < SimHash.KGRAM_SIZE →
      SimHash.hash content = ⟨List.replicate 16 '0'⟩) ∧
    SimHash.similarity (SimHash.hash "cat") (SimHash.hash "dog") = 1 ∧
    (∀ t : ℚ, SimHash.isSimilar (SimHash.hash "cat") (SimHash.hash "dog") t =
      SimHash.isSimilar (SimHash.hash "cat") (SimHash.hash "cat") t) ∧
    (∀ t : ℚ, t ≤ 1 →
      SimHash.isSimilar (SimHash.hash "cat") (SimHash.hash "dog") t = true) ∧
    (∀ t : ℚ, t ≤ 1 →
      (UrlMetaStore.checkCache catStore "x.com" "dog" t).1.cached = true ∧
      (UrlMetaStore.checkCache catStore "x.com" "dog" t).1.llmsTxt = some "L") := by
  refine ⟨?_, by decide, ?_, ?_, ?_⟩
  · intro content hshort
    by_cases hc : content = ""
    · subst hc
      rfl
    · rw [SimHash.hash, if_neg hc, extractFeatures_short _ hshort]
      decide
  · intro t
    have hcd : SimHash.similarity (SimHash.hash "cat") (SimHash.hash "dog") = 1 := by decide
    have hcc : SimHash.similarity (SimHash.hash "cat") (SimHash.hash "cat") = 1 := by decide
    rw [SimHash.isSimilar, SimHash.isSimilar, hcd, hcc]
  · intro t ht
    have hcd : SimHash.similarity (SimHash.hash "cat") (SimHash.hash "dog") = 1 := by decide
    rw [SimHash.isSimilar, hcd]
    exact decide_eq_true ht
  · intro t ht
    have hl : List.lookup (UrlNormalizer.normalize "x.com") catStore.records =
        some catRecord := by decide
    have hs : SimHash.similarity catRecord.contentHash (SimHash.hash "dog") = 1 := by decide
    have hht : t ≤ SimHash.similarity catRecord.contentHash (SimHash.hash "dog") := by
      rw [hs]
      exact ht
    have hhit := checkCache_hit catStore "x.com" "dog" t catRecord hl hht
    exact ⟨hhit.1, by rw [hhit.2.1]; rfl⟩

/-- Counterexample for C2: `normalize` is not idempotent. The input
`"www.www.example.com"` normalizes to `"www.example.com/"`, and
normalizing that once more strips a second `www.` and yields
`"example.com/"`. -/
theorem claim_C2_counterexample :
    UrlNormalizer.normalize "www.www.example.com" = "www.example.com/" ∧
    UrlNormalizer.normalize (UrlNormalizer.normalize "www.www.example.com") = "example.com/" ∧
    UrlNormalizer.normalize (UrlNormalizer.normalize "www.www.example.com") ≠
      UrlNormalizer.normalize "www.www.example.com" := by
  refine ⟨by decide, by decide, by decide⟩

/-- C2 (amended): `normalize` is idempotent on every input whose
normalized form does not itself begin with `"www."` and has no leading
whitespace (a second application can only strip a further `www.` that
the first left in place, or whitespace that stripping the protocol
exposed); on such inputs `normalize (normalize x) = normalize x`. -/
theorem claim_C2_normalize_idempotent_conditional (x : String)
    (h1 : (UrlNormalizer.normalize x).data.dropWhile Char.isWhitespace =
      (UrlNormalizer.normalize x).data)
    (h2 : UrlNormalizer.stripWww (UrlNormalizer.normalize x).data =
      (UrlNormalizer.normalize x).data) :
    UrlNormalizer.normalize (UrlNormalizer.normalize x) = UrlNormalizer.normalize x := by
  by_cases hx : x = ""
  · subst hx
    rfl
  · set y := UrlNormalizer.normalize x with hy
    have hydata : y.data =
        UrlNormalizer.collapseSlashes (UrlNormalizer.ensureSlash (UrlNormalizer.stripWww
          (UrlNormalizer.stripProtocol
            (List.map Char.toLower (UrlNormalizer.trimChars x.data))))) := by
      rw [hy, UrlNormalizer.normalize, if_neg hx]
    have hchain : List.Chain' (fun a b => ¬(a = '/' ∧ b = '/')) y.data := by
      rw [hydata]
      exact collapse_chain _
    have hlast : y.data.getLast? = some '/' := by
      rw [hydata]
      exact collapse_getLast _ (ensureSlash_getLast _)
    have hyne : y ≠ "" := by
      intro hcon
      rw [hcon] at hlast
      simp at hlast
    have hmem : ∀ c ∈ y.data, Char.toLower c = c := by
      intro c hc
      rw [hydata] at hc
      have hc1 := (collapse_sublist _).mem hc
      rcases mem_ensureSlash _ _ hc1 with hc2 | hc2
      · have hc3 := mem_stripProtocol _ _ (mem_stripWww _ _ hc2)
        rcases List.mem_map.mp hc3 with ⟨d, _, rfl⟩
        exact toLower_idem d
      · subst hc2
        decide
    have htrim : UrlNormalizer.trimChars y.data = y.data := by
      unfold UrlNormalizer.trimChars
      rw [h1]
      have hrev : y.data.reverse.head? = some '/' := by
        rw [List.head?_reverse]
        exact hlast
      cases hrevcases : y.data.reverse with
      | nil =>
        rw [hrevcases] at hrev
        simp at hrev
      | cons a t =>
        rw [hrevcases] at hrev
        simp only [List.head?_cons, Option.some.injEq] at hrev
        subst hrev
        have hdw : List.dropWhile Char.isWhitespace ('/' :: t) = '/' :: t :=
          List.dropWhile_cons_of_neg (by decide)
        rw [hdw, ← hrevcases, List.reverse_reverse]
    have hlower : List.map Char.toLower y.data = y.data := by
      calc List.map Char.toLower y.data = List.map id y.data := List.map_congr_left hmem
        _ = y.data := List.map_id y.data
    have hproto : UrlNormalizer.stripProtocol y.data = y.data := stripProtocol_of_chain _ hchain
    have hslash : UrlNormalizer.ensureSlash y.data = y.data := by
      unfold UrlNormalizer.ensureSlash
      rw [if_pos hlast]
    have hcollapse : UrlNormalizer.collapseSlashes y.data = y.data := collapse_of_chain _ hchain
    rw [UrlNormalizer.normalize, if_neg hyne, htrim, hlower, hproto, h2, hslash, hcollapse]

/-- Witness for C2 (amended): the spec's own example
`normalize("HTTP://WWW.Example.com") == normalize("example.com/")`
region, where the normalized form `"example.com/"` satisfies both side
conditions. -/
theorem claim_C2_witness :
    UrlNormalizer.normalize "HTTP://WWW.Example.com" = "example.com/" ∧
    (UrlNormalizer.normalize "HTTP://WWW.Example.com").data.dropWhile Char.isWhitespace =
      (UrlNormalizer.normalize "HTTP://WWW.Example.com").data ∧
    UrlNormalizer.stripWww (UrlNormalizer.normalize "HTTP://WWW.Example.com").data =
      (UrlNormalizer.normalize "HTTP://WWW.Example.com").data ∧
    UrlNormalizer.normalize (UrlNormalizer.normalize "HTTP://WWW.Example.com") =
      UrlNormalizer.normalize "HTTP://WWW.Example.com" :=
  ⟨by decide, by decide, by decide,
   claim_C2_normalize_idempotent_conditional _ (by decide) (by decide)⟩

set_option maxRecDepth 1000000 in
/-- Witness for C10 at the concrete inputs `"hi"`, `"cat"`, `"dog"` and
threshold 0.8. -/
theorem claim_C10_witness :
    (SimHash.normalizeContent "hi").length < SimHash.KGRAM_SIZE ∧
    SimHash.hash "hi" = ⟨List.replicate 16 '0'⟩ ∧
    (mkRat 4 5 ≤ (1 : ℚ)) ∧
    SimHash.isSimilar (SimHash.hash "cat") (SimHash.hash "dog") (mkRat 4 5) = true ∧
    (UrlMetaStore.checkCache catStore "x.com" "dog" (mkRat 4 5)).1.cached = true :=
  ⟨by decide,
   claim_C10_short_content_zero_fingerprint.1 "hi" (by decide),
   by decide,
   claim_C10_short_content_zero_fingerprint.2.2.2.1 (mkRat 4 5) (by decide),
   (claim_C10_short_content_zero_fingerprint.2.2.2.2 (mkRat 4 5) (by decide)).1⟩

end LlmsTxtGen
